import Mathlib

/-!
Verification of the channel-flow post-processing pipeline
(`validation/channel/channel_flow.py`).

The script loads a CSV of 2-D velocity samples, derives the velocity
magnitude per row, builds a fixed-x transect of query points with
`np.linspace`, and reconstructs the magnitude along the transect with
`scipy.interpolate.griddata(..., method='linear')` (Delaunay triangulation
plus piecewise-linear barycentric interpolation, `NaN` outside the convex
hull of the samples).

Modelling conventions:
* CSV numbers and coordinates are embedded as rationals (`ℚ`); the derived
  magnitude uses `Real.sqrt` and lives in `ℝ`.
* A missing / `NaN` CSV cell is `none` in `RawRow` (pandas `read_csv`
  produces `NaN` for such cells and keeps the row).
* Qhull's Delaunay triangulation is abstracted as an argument `tri`, a list
  of vertex-index triples; theorems that depend on properties of a Delaunay
  triangulation state those properties as hypotheses.
* `griddata` with `method='linear'` raises `QhullError` when the input has
  no non-degenerate simplex (fewer than 3 non-collinear points); otherwise
  each query is answered by the barycentric average at the simplex
  containing it, or `none` (modelling `NaN`) if no simplex contains it.
-/

namespace ChannelFlow

/-- One row of the solver's CSV as read by pandas before any numeric use:
each of the four named columns may hold a number or a missing/`NaN` cell
(`none`).  pandas `read_csv` keeps rows with `NaN` cells. -/
structure RawRow where
  x : Option ℚ
  y : Option ℚ
  velocity_x : Option ℚ
  velocity_y : Option ℚ
deriving DecidableEq, Repr

/-- `points = data[["x", "y"]].values`: the coordinate columns are selected
row by row, with no filtering of missing/`NaN` cells. -/
def rawPoints (data : List RawRow) : List (Option ℚ × Option ℚ) :=
  data.map fun r => (r.x, r.y)

/-- One fully numeric row of the solver's CSV (`x`, `y`, `velocity.x`,
`velocity.y`). -/
structure SamplePoint where
  x : ℚ
  y : ℚ
  velocity_x : ℚ
  velocity_y : ℚ
deriving DecidableEq, Repr

/-- `points = data[["x", "y"]].values` on numeric data: the (x, y)
coordinate pairs, in row order. -/
def points (data : List SamplePoint) : List (ℚ × ℚ) :=
  data.map fun r => (r.x, r.y)

/-- `vel_mag = np.sqrt(vel_x**2 + vel_y**2)`: the element-wise Euclidean
norm of the velocity columns, in row order. -/
noncomputable def vel_mag (data : List SamplePoint) : List ℝ :=
  data.map fun r => Real.sqrt ((r.velocity_x : ℝ) ^ 2 + (r.velocity_y : ℝ) ^ 2)

/-- `data["y"].min()`: minimum of a (nonempty) column. -/
def seriesMin : List ℚ → ℚ
  | [] => 0
  | v :: rest => rest.foldl min v

/-- `data["y"].max()`: maximum of a (nonempty) column. -/
def seriesMax : List ℚ → ℚ
  | [] => 0
  | v :: rest => rest.foldl max v

/-- `y_min = data["y"].min()`. -/
def y_min (data : List SamplePoint) : ℚ :=
  seriesMin (data.map (·.y))

/-- `y_max = data["y"].max()`. -/
def y_max (data : List SamplePoint) : ℚ :=
  seriesMax (data.map (·.y))

/-- `np.linspace(start, stop, num)` (with the default `endpoint=True`):
`num` values `start + i * (stop - start) / (num - 1)`, with the final entry
overwritten by `stop` exactly, as numpy does.  For `num = 1` numpy returns
`[start]`, matched here because `i = 0` makes the step irrelevant. -/
def linspace (start stop : ℚ) (num : ℕ) : List ℚ :=
  let step := (stop - start) / ((num : ℚ) - 1)
  let base := (List.range num).map fun i : ℕ => start + (i : ℚ) * step
  if 1 < num then base.set (num - 1) stop else base

/-- numpy raises `ValueError` when the number of samples is negative. -/
inductive LinspaceError where
  | valueError
deriving DecidableEq, Repr

/-- `np.linspace` including its argument check: a negative sample count
raises `ValueError`; any non-negative count returns a list. -/
def linspaceChecked (start stop : ℚ) (num : ℤ) : Except LinspaceError (List ℚ) :=
  if num < 0 then .error .valueError else .ok (linspace start stop num.toNat)

/-- `query_points = np.column_stack((np.full_like(y_interp, x_target),
y_interp))`: the constant `x_target` paired with every transect `y`. -/
def query_points (x_target : ℚ) (ys : List ℚ) : List (ℚ × ℚ) :=
  ys.map fun y => (x_target, y)

/-- Twice the signed area of the triangle `a b c`; the denominator of the
barycentric coordinates and Qhull's degeneracy test for a simplex. -/
def det3 (a b c : ℚ × ℚ) : ℚ :=
  (b.1 - a.1) * (c.2 - a.2) - (c.1 - a.1) * (b.2 - a.2)

/-- Barycentric coordinates of `q` with respect to the triangle `a b c`
(Cramer quotients of signed areas), as computed by
`scipy.spatial.qhull._barycentric_coordinates`. -/
def baryWeights (a b c q : ℚ × ℚ) : ℚ × ℚ × ℚ :=
  let d := det3 a b c
  (det3 q b c / d, det3 a q c / d, det3 a b q / d)

/-- Point-location test used by `LinearNDInterpolator`: `q` lies in the
closed triangle `a b c` iff the triangle is non-degenerate and all three
barycentric coordinates are non-negative. -/
def memTriangle (a b c q : ℚ × ℚ) : Bool :=
  let w := baryWeights a b c q
  decide (det3 a b c ≠ 0) && decide (0 ≤ w.1) && decide (0 ≤ w.2.1) &&
    decide (0 ≤ w.2.2)

/-- A simplex of the triangulation: three indices into the point list. -/
abbrev Simplex := ℕ × ℕ × ℕ

/-- A simplex answers query `q` when its indices are in range and `q` lies
in the closed triangle spanned by the indexed points. -/
def simplexOK (pts : List (ℚ × ℚ)) (q : ℚ × ℚ) (t : Simplex) : Bool :=
  decide (t.1 < pts.length) && decide (t.2.1 < pts.length) &&
    decide (t.2.2 < pts.length) &&
    memTriangle (pts.getD t.1 (0, 0)) (pts.getD t.2.1 (0, 0))
      (pts.getD t.2.2 (0, 0)) q

/-- One query of `LinearNDInterpolator.__call__`: locate a simplex of the
triangulation `tri` containing `q` and return the barycentric-weighted
average of its vertex values; `none` models the `NaN` fill value used when
no simplex contains `q`. -/
noncomputable def interpAt (pts : List (ℚ × ℚ)) (vals : List ℝ)
    (tri : List Simplex) (q : ℚ × ℚ) : Option ℝ :=
  match tri.find? (simplexOK pts q) with
  | some t =>
    let a := pts.getD t.1 (0, 0)
    let b := pts.getD t.2.1 (0, 0)
    let c := pts.getD t.2.2 (0, 0)
    let w := baryWeights a b c q
    some ((w.1 : ℝ) * vals.getD t.1 0 + (w.2.1 : ℝ) * vals.getD t.2.1 0 +
      (w.2.2 : ℝ) * vals.getD t.2.2 0)
  | none => none

/-- `scipy.spatial.QhullError`, raised by `Delaunay(points)` when the point
set has no non-degenerate initial simplex. -/
inductive GriddataError where
  | qhullError
deriving DecidableEq, Repr

/-- Qhull can build a 2-D Delaunay triangulation exactly when some triple
of input points is non-collinear. -/
def hasNondegenSimplex (pts : List (ℚ × ℚ)) : Bool :=
  pts.any fun a => pts.any fun b => pts.any fun c => decide (det3 a b c ≠ 0)

/-- `scipy.interpolate.griddata(points, values, queries, method='linear')`:
Delaunay-triangulate the points (the triangulation produced by Qhull is
passed in as `tri`; `QhullError` propagates when the points admit no
triangulation), then answer every query by linear barycentric
interpolation, `none` (`NaN`) outside the hull. -/
noncomputable def griddata (pts : List (ℚ × ℚ)) (vals : List ℝ)
    (queries : List (ℚ × ℚ)) (tri : List Simplex) :
    Except GriddataError (List (Option ℝ)) :=
  if hasNondegenSimplex pts then .ok (queries.map (interpAt pts vals tri))
  else .error .qhullError

/-- The whole load→derive→sample→interpolate pipeline of the script, from
the parsed CSV rows and the transect constants to the profile of
`(y, value)` pairs consumed by the renderer. -/
noncomputable def pipeline (data : List SamplePoint) (x_target : ℚ)
    (resolution : ℕ) (tri : List Simplex) :
    Except GriddataError (List (ℚ × Option ℝ)) :=
  let ys := linspace (y_min data) (y_max data) resolution
  (griddata (points data) (vel_mag data) (query_points x_target ys) tri).map
    fun out => ys.zip out

/-! ### Helper lemmas -/

/-- Embedding of an exact rational point into the real plane. -/
def toR2 (p : ℚ × ℚ) : ℝ × ℝ := ((p.1 : ℝ), (p.2 : ℝ))

/-- The real positions of a list of rational points, as a set. -/
def ptSet (pts : List (ℚ × ℚ)) : Set (ℝ × ℝ) :=
  toR2 '' {p | p ∈ pts}

theorem memTriangle_sound {a b c q : ℚ × ℚ} (h : memTriangle a b c q = true) :
    det3 a b c ≠ 0 ∧ 0 ≤ (baryWeights a b c q).1 ∧
      0 ≤ (baryWeights a b c q).2.1 ∧ 0 ≤ (baryWeights a b c q).2.2 := by
  simpa [memTriangle, Bool.and_eq_true, decide_eq_true_eq, and_assoc] using h

theorem baryWeights_sum {a b c : ℚ × ℚ} (q : ℚ × ℚ) (hd : det3 a b c ≠ 0) :
    (baryWeights a b c q).1 + (baryWeights a b c q).2.1 +
      (baryWeights a b c q).2.2 = 1 := by
  simp only [baryWeights]
  rw [div_add_div_same, div_add_div_same, div_eq_one_iff_eq hd]
  simp only [det3]
  ring

theorem baryWeights_combo_fst {a b c : ℚ × ℚ} (q : ℚ × ℚ)
    (hd : det3 a b c ≠ 0) :
    (baryWeights a b c q).1 * a.1 + (baryWeights a b c q).2.1 * b.1 +
      (baryWeights a b c q).2.2 * c.1 = q.1 := by
  simp only [baryWeights]
  field_simp
  simp only [det3]
  ring

theorem baryWeights_combo_snd {a b c : ℚ × ℚ} (q : ℚ × ℚ)
    (hd : det3 a b c ≠ 0) :
    (baryWeights a b c q).1 * a.2 + (baryWeights a b c q).2.1 * b.2 +
      (baryWeights a b c q).2.2 * c.2 = q.2 := by
  simp only [baryWeights]
  field_simp
  simp only [det3]
  ring

theorem det3_self_left (a c : ℚ × ℚ) : det3 a a c = 0 := by
  simp only [det3]; ring

theorem det3_self_right (a b : ℚ × ℚ) : det3 a b b = 0 := by
  simp only [det3]; ring

theorem det3_self_outer (a b : ℚ × ℚ) : det3 a b a = 0 := by
  simp only [det3]; ring

theorem det3_left_eq_right (c b : ℚ × ℚ) : det3 c b c = 0 := by
  simp only [det3]; ring

/-- Barycentric coordinates at the first vertex. -/
theorem baryWeights_vertex_fst {a b c : ℚ × ℚ} (hd : det3 a b c ≠ 0) :
    baryWeights a b c a = (1, 0, 0) := by
  simp [baryWeights, det3_self_left, det3_self_outer, div_self hd]

/-- Barycentric coordinates at the second vertex. -/
theorem baryWeights_vertex_snd {a b c : ℚ × ℚ} (hd : det3 a b c ≠ 0) :
    baryWeights a b c b = (0, 1, 0) := by
  simp [baryWeights, det3_self_left, det3_self_right, div_self hd]

/-- Barycentric coordinates at the third vertex. -/
theorem baryWeights_vertex_trd {a b c : ℚ × ℚ} (hd : det3 a b c ≠ 0) :
    baryWeights a b c c = (0, 0, 1) := by
  simp [baryWeights, det3_left_eq_right, det3_self_right, div_self hd]

/-- A point passing the barycentric containment test lies in the convex
hull of the triangle's three (real-embedded) vertices. -/
theorem memTriangle_mem_convexHull {a b c q : ℚ × ℚ}
    (h : memTriangle a b c q = true) :
    toR2 q ∈ convexHull ℝ ({toR2 a, toR2 b, toR2 c} : Set (ℝ × ℝ)) := by
  obtain ⟨hd, h1, h2, h3⟩ := memTriangle_sound h
  have hsum := baryWeights_sum q hd
  have hx := baryWeights_combo_fst q hd
  have hy := baryWeights_combo_snd q hd
  have hsumR : ((baryWeights a b c q).1 : ℝ) + ((baryWeights a b c q).2.1 : ℝ) +
      ((baryWeights a b c q).2.2 : ℝ) = 1 := by exact_mod_cast hsum
  have hq : toR2 q = (Finset.univ : Finset (Fin 3)).centerMass
      ![((baryWeights a b c q).1 : ℝ), ((baryWeights a b c q).2.1 : ℝ),
        ((baryWeights a b c q).2.2 : ℝ)]
      ![toR2 a, toR2 b, toR2 c] := by
    rw [Finset.centerMass, Fin.sum_univ_three, Fin.sum_univ_three]
    simp only [Matrix.cons_val_zero, Matrix.cons_val_one, Matrix.head_cons,
      Matrix.cons_val_two, Matrix.tail_cons]
    rw [hsumR, inv_one, one_smul]
    apply Prod.ext
    · simp only [toR2, Prod.fst_add, Prod.smul_fst, smul_eq_mul]
      exact_mod_cast hx.symm
    · simp only [toR2, Prod.snd_add, Prod.smul_snd, smul_eq_mul]
      exact_mod_cast hy.symm
  rw [hq]
  apply Finset.centerMass_mem_convexHull
  · intro i _
    fin_cases i
    · simpa using h1
    · simpa using h2
    · simpa using h3
  · rw [Fin.sum_univ_three]
    simp only [Matrix.cons_val_zero, Matrix.cons_val_one, Matrix.head_cons,
      Matrix.cons_val_two, Matrix.tail_cons]
    rw [hsumR]
    norm_num
  · intro i _
    fin_cases i
    · simp
    · simp
    · simp [Set.mem_insert_iff]

/-- An in-range `getD` of the point list lands in the real point set. -/
theorem getD_mem_ptSet {pts : List (ℚ × ℚ)} {i : ℕ} (h : i < pts.length) :
    toR2 (pts.getD i (0, 0)) ∈ ptSet pts := by
  refine ⟨pts.getD i (0, 0), ?_, rfl⟩
  rw [List.getD_eq_getElem _ _ h]
  exact List.getElem_mem h

theorem foldl_min_le_init : ∀ (l : List ℚ) (a : ℚ), l.foldl min a ≤ a := by
  intro l
  induction l with
  | nil => intro a; simp
  | cons v t ih =>
    intro a
    simp only [List.foldl_cons]
    exact le_trans (ih (min a v)) (min_le_left a v)

theorem foldl_min_le_mem :
    ∀ (l : List ℚ) (a x : ℚ), x ∈ l → l.foldl min a ≤ x := by
  intro l
  induction l with
  | nil => intro a x hx; cases hx
  | cons v t ih =>
    intro a x hx
    simp only [List.foldl_cons]
    rcases List.mem_cons.mp hx with rfl | hx
    · exact le_trans (foldl_min_le_init t (min a x)) (min_le_right a x)
    · exact ih (min a v) x hx

theorem foldl_min_mem :
    ∀ (l : List ℚ) (a : ℚ), l.foldl min a = a ∨ l.foldl min a ∈ l := by
  intro l
  induction l with
  | nil => intro a; left; rfl
  | cons v t ih =>
    intro a
    simp only [List.foldl_cons]
    rcases ih (min a v) with heq | hmem
    · rw [heq]
      rcases min_choice a v with h | h
      · left; exact h
      · right; rw [h]; exact List.mem_cons_self v t
    · right; exact List.mem_cons_of_mem v hmem

theorem foldl_max_init_le : ∀ (l : List ℚ) (a : ℚ), a ≤ l.foldl max a := by
  intro l
  induction l with
  | nil => intro a; simp
  | cons v t ih =>
    intro a
    simp only [List.foldl_cons]
    exact le_trans (le_max_left a v) (ih (max a v))

theorem foldl_max_mem_le :
    ∀ (l : List ℚ) (a x : ℚ), x ∈ l → x ≤ l.foldl max a := by
  intro l
  induction l with
  | nil => intro a x hx; cases hx
  | cons v t ih =>
    intro a x hx
    simp only [List.foldl_cons]
    rcases List.mem_cons.mp hx with rfl | hx
    · exact le_trans (le_max_right a x) (foldl_max_init_le t (max a x))
    · exact ih (max a v) x hx

theorem foldl_max_mem :
    ∀ (l : List ℚ) (a : ℚ), l.foldl max a = a ∨ l.foldl max a ∈ l := by
  intro l
  induction l with
  | nil => intro a; left; rfl
  | cons v t ih =>
    intro a
    simp only [List.foldl_cons]
    rcases ih (max a v) with heq | hmem
    · rw [heq]
      rcases max_choice a v with h | h
      · left; exact h
      · right; rw [h]; exact List.mem_cons_self v t
    · right; exact List.mem_cons_of_mem v hmem

/-- For two or more samples the numpy endpoint overwrite is redundant in
exact arithmetic: `linspace` is the plain evenly-spaced formula. -/
theorem linspace_eq_map {start stop : ℚ} {num : ℕ} (hn : 2 ≤ num) :
    linspace start stop num = (List.range num).map
      (fun i : ℕ => start + (i : ℚ) * ((stop - start) / ((num : ℚ) - 1))) := by
  have h1 : 1 < num := hn
  have hden : ((num : ℚ) - 1) ≠ 0 := by
    have : (2 : ℚ) ≤ (num : ℚ) := by exact_mod_cast hn
    linarith
  simp only [linspace, if_pos h1]
  apply List.ext_getElem
  · simp
  · intro i hi1 hi2
    rw [List.getElem_set]
    split
    · next heq =>
      have hicast : (i : ℚ) = (num : ℚ) - 1 := by
        have : i = num - 1 := heq.symm
        subst this
        push_cast [Nat.cast_sub (by omega : 1 ≤ num)]
        ring
      simp only [List.getElem_map, List.getElem_range]
      rw [hicast]
      field_simp
    · simp

theorem seriesMin_le {l : List ℚ} {x : ℚ} (hx : x ∈ l) : seriesMin l ≤ x := by
  cases l with
  | nil => cases hx
  | cons v t =>
    simp only [seriesMin]
    rcases List.mem_cons.mp hx with rfl | hx
    · exact foldl_min_le_init t x
    · exact foldl_min_le_mem t v x hx

theorem seriesMin_mem {l : List ℚ} (hl : l ≠ []) : seriesMin l ∈ l := by
  cases l with
  | nil => exact absurd rfl hl
  | cons v t =>
    simp only [seriesMin]
    rcases foldl_min_mem t v with heq | hmem
    · rw [heq]; exact List.mem_cons_self v t
    · exact List.mem_cons_of_mem v hmem

theorem le_seriesMax {l : List ℚ} {x : ℚ} (hx : x ∈ l) : x ≤ seriesMax l := by
  cases l with
  | nil => cases hx
  | cons v t =>
    simp only [seriesMax]
    rcases List.mem_cons.mp hx with rfl | hx
    · exact foldl_max_init_le t x
    · exact foldl_max_mem_le t v x hx

theorem seriesMax_mem {l : List ℚ} (hl : l ≠ []) : seriesMax l ∈ l := by
  cases l with
  | nil => exact absurd rfl hl
  | cons v t =>
    simp only [seriesMax]
    rcases foldl_max_mem t v with heq | hmem
    · rw [heq]; exact List.mem_cons_self v t
    · exact List.mem_cons_of_mem v hmem

/-- Closed form for each generated query point. -/
theorem query_points_getD (x_target ymin ymax : ℚ) {n i : ℕ}
    (hn : 2 ≤ n) (hi : i < n) :
    (query_points x_target (linspace ymin ymax n)).getD i (0, 0) =
      (x_target, ymin + (i : ℚ) * ((ymax - ymin) / ((n : ℚ) - 1))) := by
  rw [query_points, linspace_eq_map hn,
    List.getD_eq_getElem _ _ (by simpa using hi)]
  simp

/-! ### Claim theorems -/

/-- C1: the derived velocity magnitude is computed element-wise as
`sqrt(velocity_x^2 + velocity_y^2)`, preserving the order of the sample
sequence and yielding a parallel list of the same length. -/
theorem vel_mag_elementwise (data : List SamplePoint) :
    (vel_mag data).length = data.length ∧
    ∀ i, i < data.length →
      (vel_mag data).getD i 0 =
        Real.sqrt (((data.getD i ⟨0, 0, 0, 0⟩).velocity_x : ℝ) ^ 2 +
          ((data.getD i ⟨0, 0, 0, 0⟩).velocity_y : ℝ) ^ 2) := by
  constructor
  · simp [vel_mag]
  · intro i hi
    rw [List.getD_eq_getElem _ _ (by simpa [vel_mag] using hi),
      List.getD_eq_getElem _ _ hi]
    simp [vel_mag]

/-- Witness for C1 at a concrete one-row input. -/
theorem vel_mag_elementwise_witness :
    (vel_mag [⟨1, 2, 3, 4⟩]).getD 0 0 =
      Real.sqrt (((3 : ℚ) : ℝ) ^ 2 + ((4 : ℚ) : ℝ) ^ 2) := by
  have h := (vel_mag_elementwise [⟨1, 2, 3, 4⟩]).2 0 (by norm_num)
  simpa using h

/-- C2: for resolution `n ≥ 2` the generated query-point sequence has
exactly `n` entries, entry `i` pairing the constant `x_target` with
`y_min + i*(y_max - y_min)/(n-1)`; the first `y` is `y_min` and the last is
`y_max`, where `y_min`/`y_max` are the attained minimum and maximum of the
samples' `y` column; and `y_min=0, y_max=1, n=5` gives
`[0, 1/4, 1/2, 3/4, 1]`. -/
theorem transect_query_points (data : List SamplePoint) (x_target : ℚ)
    (n : ℕ) (hdata : data ≠ []) (hn : 2 ≤ n) :
    (query_points x_target (linspace (y_min data) (y_max data) n)).length = n ∧
    (∀ i, i < n →
      (query_points x_target (linspace (y_min data) (y_max data) n)).getD i (0, 0) =
        (x_target, y_min data +
          (i : ℚ) * ((y_max data - y_min data) / ((n : ℚ) - 1)))) ∧
    ((query_points x_target (linspace (y_min data) (y_max data) n)).getD 0
      (0, 0)).2 = y_min data ∧
    ((query_points x_target (linspace (y_min data) (y_max data) n)).getD (n - 1)
      (0, 0)).2 = y_max data ∧
    (∀ p ∈ data, y_min data ≤ p.y ∧ p.y ≤ y_max data) ∧
    (∃ p ∈ data, p.y = y_min data) ∧
    (∃ p ∈ data, p.y = y_max data) ∧
    linspace 0 1 5 = [0, 1/4, 1/2, 3/4, 1] := by
  have hden : ((n : ℚ) - 1) ≠ 0 := by
    have : (2 : ℚ) ≤ (n : ℚ) := by exact_mod_cast hn
    linarith
  refine ⟨?_, ?_, ?_, ?_, ?_, ?_, ?_, ?_⟩
  · rw [query_points, linspace_eq_map hn]
    simp
  · intro i hi
    exact query_points_getD x_target (y_min data) (y_max data) hn hi
  · rw [query_points_getD x_target (y_min data) (y_max data) hn (by omega)]
    norm_num
  · rw [query_points_getD x_target (y_min data) (y_max data) hn (by omega)]
    have hcast : ((n - 1 : ℕ) : ℚ) = (n : ℚ) - 1 := by
      push_cast [Nat.cast_sub (by omega : 1 ≤ n)]
      ring
    simp only [hcast]
    field_simp
  · intro p hp
    have hy : p.y ∈ data.map (·.y) := List.mem_map.mpr ⟨p, hp, rfl⟩
    exact ⟨seriesMin_le hy, le_seriesMax hy⟩
  · have hmem : seriesMin (data.map (·.y)) ∈ data.map (·.y) :=
      seriesMin_mem (by simpa using hdata)
    obtain ⟨p, hp, hpy⟩ := List.mem_map.mp hmem
    exact ⟨p, hp, hpy⟩
  · have hmem : seriesMax (data.map (·.y)) ∈ data.map (·.y) :=
      seriesMax_mem (by simpa using hdata)
    obtain ⟨p, hp, hpy⟩ := List.mem_map.mp hmem
    exact ⟨p, hp, hpy⟩
  · rw [linspace_eq_map (by norm_num)]
    simp [List.range_succ]
    norm_num

/-- Witness for C2: two samples spanning `y ∈ [0, 1]`, resolution 5 — the
last query point of the transect at `x_target = 4.5` is `(4.5, 1)`. -/
theorem transect_query_points_witness :
    (query_points (9/2)
      (linspace (y_min [⟨0, 0, 1, 0⟩, ⟨0, 1, 0, 1⟩])
        (y_max [⟨0, 0, 1, 0⟩, ⟨0, 1, 0, 1⟩]) 5)).getD 4 (0, 0) = (9/2, 1) := by
  have h := (transect_query_points [⟨0, 0, 1, 0⟩, ⟨0, 1, 0, 1⟩] (9/2) 5
    (by decide) (by norm_num)).2.1 4 (by norm_num)
  rw [h]
  norm_num [y_min, y_max, seriesMin, seriesMax]

/-- C3: a query point lying strictly outside the convex hull of the input
points gets the undefined sentinel (`none`, modelling `NaN`): no
extrapolated numeric value is produced, for any triangulation whose
simplices index into the point list. -/
theorem interp_none_outside_hull (pts : List (ℚ × ℚ)) (vals : List ℝ)
    (tri : List Simplex) (q : ℚ × ℚ)
    (hq : toR2 q ∉ convexHull ℝ (ptSet pts)) :
    interpAt pts vals tri q = none := by
  cases hfind : tri.find? (simplexOK pts q) with
  | none => simp [interpAt, hfind]
  | some t =>
    exfalso
    have hpred := List.find?_some hfind
    have hok : t.1 < pts.length ∧ t.2.1 < pts.length ∧ t.2.2 < pts.length ∧
        memTriangle (pts.getD t.1 (0, 0)) (pts.getD t.2.1 (0, 0))
          (pts.getD t.2.2 (0, 0)) q = true := by
      simpa [simplexOK, Bool.and_eq_true, decide_eq_true_eq, and_assoc]
        using hpred
    obtain ⟨ht1, ht2, ht3, hmem⟩ := hok
    apply hq
    refine convexHull_mono ?_ (memTriangle_mem_convexHull hmem)
    intro x hx
    rcases hx with rfl | rfl | rfl
    · exact getD_mem_ptSet ht1
    · exact getD_mem_ptSet ht2
    · exact getD_mem_ptSet ht3

/-- Witness for C3: the query `(2, 2)` lies outside the hull of the unit
right triangle and interpolates to `none`. -/
theorem interp_none_outside_hull_witness :
    interpAt [(0, 0), (1, 0), (0, 1)] [1, 1, 2] [(0, 1, 2)] (2, 2) = none := by
  apply interp_none_outside_hull
  intro hmem
  have hsub : ptSet [(0, 0), (1, 0), (0, 1)] ⊆
      {p : ℝ × ℝ | p.1 + p.2 ≤ 1} := by
    rintro x ⟨p, hp, rfl⟩
    have : p = (0, 0) ∨ p = (1, 0) ∨ p = (0, 1) := by simpa using hp
    rcases this with rfl | rfl | rfl <;> norm_num [toR2]
  have hlin : IsLinearMap ℝ (fun p : ℝ × ℝ => p.1 + p.2) := by
    constructor
    · intro x y
      simp only [Prod.fst_add, Prod.snd_add]
      ring
    · intro c x
      simp only [Prod.smul_fst, Prod.smul_snd, smul_eq_mul]
      ring
  have hout := convexHull_min hsub (convex_halfSpace_le hlin 1) hmem
  norm_num [toR2] at hout

/-- A defined interpolation answer is a convex combination of three input
values, hence bounded by any bounds on the value list. -/
theorem interpAt_some_bounds {pts : List (ℚ × ℚ)} {vals : List ℝ}
    {tri : List Simplex} {q : ℚ × ℚ} {r lo hi : ℝ}
    (hr : interpAt pts vals tri q = some r)
    (hlen : vals.length = pts.length)
    (hlo : ∀ v ∈ vals, lo ≤ v) (hhi : ∀ v ∈ vals, v ≤ hi) :
    lo ≤ r ∧ r ≤ hi := by
  rw [interpAt] at hr
  cases hfind : tri.find? (simplexOK pts q) with
  | none => rw [hfind] at hr; cases hr
  | some t =>
    rw [hfind] at hr
    have hpred := List.find?_some hfind
    have hok : t.1 < pts.length ∧ t.2.1 < pts.length ∧ t.2.2 < pts.length ∧
        memTriangle (pts.getD t.1 (0, 0)) (pts.getD t.2.1 (0, 0))
          (pts.getD t.2.2 (0, 0)) q = true := by
      simpa [simplexOK, Bool.and_eq_true, decide_eq_true_eq, and_assoc]
        using hpred
    obtain ⟨ht1, ht2, ht3, hmem⟩ := hok
    obtain ⟨hd, hw1, hw2, hw3⟩ := memTriangle_sound hmem
    have hsum := baryWeights_sum (a := pts.getD t.1 (0, 0))
      (b := pts.getD t.2.1 (0, 0)) (c := pts.getD t.2.2 (0, 0)) q hd
    have hr' : r = ((baryWeights (pts.getD t.1 (0, 0)) (pts.getD t.2.1 (0, 0))
          (pts.getD t.2.2 (0, 0)) q).1 : ℝ) * vals.getD t.1 0 +
        ((baryWeights (pts.getD t.1 (0, 0)) (pts.getD t.2.1 (0, 0))
          (pts.getD t.2.2 (0, 0)) q).2.1 : ℝ) * vals.getD t.2.1 0 +
        ((baryWeights (pts.getD t.1 (0, 0)) (pts.getD t.2.1 (0, 0))
          (pts.getD t.2.2 (0, 0)) q).2.2 : ℝ) * vals.getD t.2.2 0 :=
      (Option.some.inj hr).symm
    set w := baryWeights (pts.getD t.1 (0, 0)) (pts.getD t.2.1 (0, 0))
      (pts.getD t.2.2 (0, 0)) q with hwdef
    have hW1 : (0 : ℝ) ≤ (w.1 : ℝ) := by exact_mod_cast hw1
    have hW2 : (0 : ℝ) ≤ (w.2.1 : ℝ) := by exact_mod_cast hw2
    have hW3 : (0 : ℝ) ≤ (w.2.2 : ℝ) := by exact_mod_cast hw3
    have hsumR : (w.1 : ℝ) + (w.2.1 : ℝ) + (w.2.2 : ℝ) = 1 := by
      exact_mod_cast hsum
    have hv1 : vals.getD t.1 0 ∈ vals := by
      rw [List.getD_eq_getElem _ _ (by omega)]
      exact List.getElem_mem (by omega)
    have hv2 : vals.getD t.2.1 0 ∈ vals := by
      rw [List.getD_eq_getElem _ _ (by omega)]
      exact List.getElem_mem (by omega)
    have hv3 : vals.getD t.2.2 0 ∈ vals := by
      rw [List.getD_eq_getElem _ _ (by omega)]
      exact List.getElem_mem (by omega)
    constructor
    · have e1 := mul_le_mul_of_nonneg_left (hlo _ hv1) hW1
      have e2 := mul_le_mul_of_nonneg_left (hlo _ hv2) hW2
      have e3 := mul_le_mul_of_nonneg_left (hlo _ hv3) hW3
      have hdist : (w.1 : ℝ) * lo + (w.2.1 : ℝ) * lo + (w.2.2 : ℝ) * lo = lo := by
        rw [← add_mul, ← add_mul, hsumR, one_mul]
      linarith [hr', e1, e2, e3, hdist]
    · have e1 := mul_le_mul_of_nonneg_left (hhi _ hv1) hW1
      have e2 := mul_le_mul_of_nonneg_left (hhi _ hv2) hW2
      have e3 := mul_le_mul_of_nonneg_left (hhi _ hv3) hW3
      have hdist : (w.1 : ℝ) * hi + (w.2.1 : ℝ) * hi + (w.2.2 : ℝ) * hi = hi := by
        rw [← add_mul, ← add_mul, hsumR, one_mul]
      linarith [hr', e1, e2, e3, hdist]

/-- Every velocity magnitude is a square root, hence non-negative. -/
theorem vel_mag_nonneg (data : List SamplePoint) :
    ∀ v ∈ vel_mag data, 0 ≤ v := by
  intro v hv
  obtain ⟨p, _, rfl⟩ := List.mem_map.mp hv
  exact Real.sqrt_nonneg _

/-- C10: every defined value of the interpolated profile lies between any
lower and upper bound of the input velocity magnitudes (it is a convex
barycentric combination of three of them), and in particular is
non-negative since each magnitude is a square root. -/
theorem interp_value_bounds (data : List SamplePoint) (tri : List Simplex)
    (q : ℚ × ℚ) (r lo hi : ℝ)
    (hr : interpAt (points data) (vel_mag data) tri q = some r)
    (hlo : ∀ v ∈ vel_mag data, lo ≤ v) (hhi : ∀ v ∈ vel_mag data, v ≤ hi) :
    (lo ≤ r ∧ r ≤ hi) ∧ 0 ≤ r := by
  have hlen : (vel_mag data).length = (points data).length := by
    simp [vel_mag, points]
  refine ⟨interpAt_some_bounds hr hlen hlo hhi, ?_⟩
  exact (interpAt_some_bounds hr hlen (vel_mag_nonneg data) hhi).1

theorem sqrt_four : Real.sqrt 4 = 2 := by
  rw [show (4 : ℝ) = 2 ^ 2 by norm_num]
  exact Real.sqrt_sq (by norm_num)

/-- Magnitudes of the three-sample right-triangle data set. -/
theorem vel_mag_rightTriangle :
    vel_mag [⟨0, 0, 1, 0⟩, ⟨1, 0, 0, 1⟩, ⟨0, 1, 2, 0⟩] = [1, 1, 2] := by
  simp only [vel_mag, List.map_cons, List.map_nil]
  norm_num [sqrt_four]

/-- Magnitudes of the four-sample unit-square data set of the concrete
scenario. -/
theorem vel_mag_square :
    vel_mag [⟨0, 0, 1, 0⟩, ⟨1, 0, 0, 1⟩, ⟨0, 1, 2, 0⟩, ⟨1, 1, 0, 2⟩] =
      [1, 1, 2, 2] := by
  simp only [vel_mag, List.map_cons, List.map_nil]
  norm_num [sqrt_four]

/-- Evaluation rule: when the head simplex of the triangulation answers the
query, `interpAt` returns its barycentric combination. -/
theorem interpAt_cons_pos {pts : List (ℚ × ℚ)} (vals : List ℝ) {t : Simplex}
    (tri : List Simplex) {q : ℚ × ℚ} (h : simplexOK pts q t = true) :
    interpAt pts vals (t :: tri) q =
      some (((baryWeights (pts.getD t.1 (0, 0)) (pts.getD t.2.1 (0, 0))
          (pts.getD t.2.2 (0, 0)) q).1 : ℝ) * vals.getD t.1 0 +
        ((baryWeights (pts.getD t.1 (0, 0)) (pts.getD t.2.1 (0, 0))
          (pts.getD t.2.2 (0, 0)) q).2.1 : ℝ) * vals.getD t.2.1 0 +
        ((baryWeights (pts.getD t.1 (0, 0)) (pts.getD t.2.1 (0, 0))
          (pts.getD t.2.2 (0, 0)) q).2.2 : ℝ) * vals.getD t.2.2 0) := by
  simp only [interpAt, List.find?_cons_of_pos _ h]

/-- Witness for C10: on the right-triangle data set the value interpolated
at `(1/4, 1/4)` is defined and lies within the magnitude bounds `[1, 2]`
(and is non-negative). -/
theorem interp_value_bounds_witness :
    ∃ r, interpAt (points [⟨0, 0, 1, 0⟩, ⟨1, 0, 0, 1⟩, ⟨0, 1, 2, 0⟩])
        (vel_mag [⟨0, 0, 1, 0⟩, ⟨1, 0, 0, 1⟩, ⟨0, 1, 2, 0⟩]) [(0, 1, 2)]
        (1/4, 1/4) = some r ∧ ((1 ≤ r ∧ r ≤ 2) ∧ 0 ≤ r) := by
  have hok : simplexOK (points [⟨0, 0, 1, 0⟩, ⟨1, 0, 0, 1⟩, ⟨0, 1, 2, 0⟩])
      (1/4, 1/4) (0, 1, 2) = true := by
    simp only [simplexOK, memTriangle, baryWeights, det3, points,
      List.map_cons, List.map_nil, List.getD_cons_zero, List.getD_cons_succ,
      Bool.and_eq_true, decide_eq_true_eq]
    norm_num
  have hr := interpAt_cons_pos
    (vel_mag [⟨0, 0, 1, 0⟩, ⟨1, 0, 0, 1⟩, ⟨0, 1, 2, 0⟩]) [] hok
  rw [vel_mag_rightTriangle] at hr
  have hval : interpAt (points [⟨0, 0, 1, 0⟩, ⟨1, 0, 0, 1⟩, ⟨0, 1, 2, 0⟩])
      (vel_mag [⟨0, 0, 1, 0⟩, ⟨1, 0, 0, 1⟩, ⟨0, 1, 2, 0⟩]) [(0, 1, 2)]
      (1/4, 1/4) = some (5/4) := by
    rw [vel_mag_rightTriangle, hr]
    simp only [baryWeights, det3, points, List.map_cons, List.map_nil,
      List.getD_cons_zero, List.getD_cons_succ]
    norm_num
  refine ⟨5/4, hval, ?_⟩
  refine (interp_value_bounds [⟨0, 0, 1, 0⟩, ⟨1, 0, 0, 1⟩, ⟨0, 1, 2, 0⟩]
    [(0, 1, 2)] (1/4, 1/4) (5/4) 1 2 hval ?_ ?_)
  · rw [vel_mag_rightTriangle]
    intro v hv
    rcases (by simpa using hv : v = 1 ∨ v = 1 ∨ v = 2) with rfl | rfl | rfl <;>
      norm_num
  · rw [vel_mag_rightTriangle]
    intro v hv
    rcases (by simpa using hv : v = 1 ∨ v = 1 ∨ v = 2) with rfl | rfl | rfl <;>
      norm_num

/-- C4: with pairwise-distinct sample coordinates, interpolating at the
coordinates of sample `k` returns that sample's own derived magnitude,
for any triangulation that covers the node and — as a Delaunay
triangulation does — only contains the node in simplices having it as a
vertex. -/
theorem interp_exact_at_nodes (data : List SamplePoint) (tri : List Simplex)
    (k : ℕ) (hk : k < data.length) (hnodup : (points data).Nodup)
    (hcover : ∃ t ∈ tri,
      simplexOK (points data) ((points data).getD k (0, 0)) t = true)
    (hvertex : ∀ t ∈ tri,
      simplexOK (points data) ((points data).getD k (0, 0)) t = true →
      (points data).getD t.1 (0, 0) = (points data).getD k (0, 0) ∨
      (points data).getD t.2.1 (0, 0) = (points data).getD k (0, 0) ∨
      (points data).getD t.2.2 (0, 0) = (points data).getD k (0, 0)) :
    interpAt (points data) (vel_mag data) tri ((points data).getD k (0, 0)) =
      some ((vel_mag data).getD k 0) := by
  have hklen : k < (points data).length := by simpa [points] using hk
  cases hfind : tri.find?
      (simplexOK (points data) ((points data).getD k (0, 0))) with
  | none =>
    exfalso
    obtain ⟨t0, ht0, hok0⟩ := hcover
    have hnone := List.find?_eq_none.mp hfind t0 ht0
    rw [hok0] at hnone
    exact hnone rfl
  | some t =>
    have hpred := List.find?_some hfind
    have htmem := List.mem_of_find?_eq_some hfind
    have hok : t.1 < (points data).length ∧ t.2.1 < (points data).length ∧
        t.2.2 < (points data).length ∧
        memTriangle ((points data).getD t.1 (0, 0))
          ((points data).getD t.2.1 (0, 0)) ((points data).getD t.2.2 (0, 0))
          ((points data).getD k (0, 0)) = true := by
      simpa [simplexOK, Bool.and_eq_true, decide_eq_true_eq, and_assoc]
        using hpred
    obtain ⟨ht1, ht2, ht3, hmem⟩ := hok
    obtain ⟨hd, hw1, hw2, hw3⟩ := memTriangle_sound hmem
    simp only [interpAt, hfind]
    rcases hvertex t htmem hpred with hA | hB | hC
    · have hw : baryWeights ((points data).getD t.1 (0, 0))
          ((points data).getD t.2.1 (0, 0)) ((points data).getD t.2.2 (0, 0))
          ((points data).getD k (0, 0)) = (1, 0, 0) := by
        rw [← hA]
        exact baryWeights_vertex_fst hd
      have hidx : t.1 = k := by
        apply hnodup.getElem_inj_iff.mp
        rw [← List.getD_eq_getElem (points data) (0, 0) ht1,
          ← List.getD_eq_getElem (points data) (0, 0) hklen]
        exact hA
      rw [hw, hidx]
      norm_num
    · have hw : baryWeights ((points data).getD t.1 (0, 0))
          ((points data).getD t.2.1 (0, 0)) ((points data).getD t.2.2 (0, 0))
          ((points data).getD k (0, 0)) = (0, 1, 0) := by
        rw [← hB]
        exact baryWeights_vertex_snd hd
      have hidx : t.2.1 = k := by
        apply hnodup.getElem_inj_iff.mp
        rw [← List.getD_eq_getElem (points data) (0, 0) ht2,
          ← List.getD_eq_getElem (points data) (0, 0) hklen]
        exact hB
      rw [hw, hidx]
      norm_num
    · have hw : baryWeights ((points data).getD t.1 (0, 0))
          ((points data).getD t.2.1 (0, 0)) ((points data).getD t.2.2 (0, 0))
          ((points data).getD k (0, 0)) = (0, 0, 1) := by
        rw [← hC]
        exact baryWeights_vertex_trd hd
      have hidx : t.2.2 = k := by
        apply hnodup.getElem_inj_iff.mp
        rw [← List.getD_eq_getElem (points data) (0, 0) ht3,
          ← List.getD_eq_getElem (points data) (0, 0) hklen]
        exact hC
      rw [hw, hidx]
      norm_num

/-- Witness for C4: interpolating the right-triangle data set at the first
sample's coordinates returns the first magnitude. -/
theorem interp_exact_at_nodes_witness :
    interpAt (points [⟨0, 0, 1, 0⟩, ⟨1, 0, 0, 1⟩, ⟨0, 1, 2, 0⟩])
        (vel_mag [⟨0, 0, 1, 0⟩, ⟨1, 0, 0, 1⟩, ⟨0, 1, 2, 0⟩]) [(0, 1, 2)]
        ((points [⟨0, 0, 1, 0⟩, ⟨1, 0, 0, 1⟩, ⟨0, 1, 2, 0⟩]).getD 0 (0, 0)) =
      some ((vel_mag [⟨0, 0, 1, 0⟩, ⟨1, 0, 0, 1⟩, ⟨0, 1, 2, 0⟩]).getD 0 0) := by
  have hok : simplexOK (points [⟨0, 0, 1, 0⟩, ⟨1, 0, 0, 1⟩, ⟨0, 1, 2, 0⟩])
      ((points [⟨0, 0, 1, 0⟩, ⟨1, 0, 0, 1⟩, ⟨0, 1, 2, 0⟩]).getD 0 (0, 0))
      (0, 1, 2) = true := by
    simp only [simplexOK, memTriangle, baryWeights, det3, points,
      List.map_cons, List.map_nil, List.getD_cons_zero, List.getD_cons_succ,
      Bool.and_eq_true, decide_eq_true_eq]
    norm_num
  refine interp_exact_at_nodes [⟨0, 0, 1, 0⟩, ⟨1, 0, 0, 1⟩, ⟨0, 1, 2, 0⟩]
    [(0, 1, 2)] 0 (by norm_num) (by decide) ⟨(0, 1, 2), by simp, hok⟩ ?_
  intro t ht _
  have : t = ((0 : ℕ), (1 : ℕ), (2 : ℕ)) := by simpa using ht
  subst this
  left
  simp [points]

/-- Coordinates of the four-sample unit-square data set. -/
theorem points_square :
    points [⟨0, 0, 1, 0⟩, ⟨1, 0, 0, 1⟩, ⟨0, 1, 2, 0⟩, ⟨1, 1, 0, 2⟩] =
      [(0, 0), (1, 0), (0, 1), (1, 1)] := by
  simp [points]

/-- The real magnitude list of the square scenario, indexed with default,
agrees with the rational list `[1, 1, 2, 2]`. -/
theorem square_mags_getD (i : ℕ) :
    (([1, 1, 2, 2] : List ℝ)).getD i 0 =
      ((([1, 1, 2, 2] : List ℚ)).getD i 0 : ℝ) := by
  rcases i with _ | _ | _ | _ | i <;> simp

/-- Any simplex over the square's corners that contains the centre
`(1/2, 1/2)` assigns it the barycentric value `3/2` for the vertex values
`[1, 1, 2, 2]`. -/
theorem square_center_combo :
    ∀ i, i < 4 → ∀ j, j < 4 → ∀ k, k < 4 →
      memTriangle
        (([(0, 0), (1, 0), (0, 1), (1, 1)] : List (ℚ × ℚ)).getD i (0, 0))
        (([(0, 0), (1, 0), (0, 1), (1, 1)] : List (ℚ × ℚ)).getD j (0, 0))
        (([(0, 0), (1, 0), (0, 1), (1, 1)] : List (ℚ × ℚ)).getD k (0, 0))
        (1/2, 1/2) = true →
      (baryWeights
          (([(0, 0), (1, 0), (0, 1), (1, 1)] : List (ℚ × ℚ)).getD i (0, 0))
          (([(0, 0), (1, 0), (0, 1), (1, 1)] : List (ℚ × ℚ)).getD j (0, 0))
          (([(0, 0), (1, 0), (0, 1), (1, 1)] : List (ℚ × ℚ)).getD k (0, 0))
          (1/2, 1/2)).1 * (([1, 1, 2, 2] : List ℚ).getD i 0) +
        (baryWeights
          (([(0, 0), (1, 0), (0, 1), (1, 1)] : List (ℚ × ℚ)).getD i (0, 0))
          (([(0, 0), (1, 0), (0, 1), (1, 1)] : List (ℚ × ℚ)).getD j (0, 0))
          (([(0, 0), (1, 0), (0, 1), (1, 1)] : List (ℚ × ℚ)).getD k (0, 0))
          (1/2, 1/2)).2.1 * (([1, 1, 2, 2] : List ℚ).getD j 0) +
        (baryWeights
          (([(0, 0), (1, 0), (0, 1), (1, 1)] : List (ℚ × ℚ)).getD i (0, 0))
          (([(0, 0), (1, 0), (0, 1), (1, 1)] : List (ℚ × ℚ)).getD j (0, 0))
          (([(0, 0), (1, 0), (0, 1), (1, 1)] : List (ℚ × ℚ)).getD k (0, 0))
          (1/2, 1/2)).2.2 * (([1, 1, 2, 2] : List ℚ).getD k 0) = 3/2 := by
  intro i hi j hj k hk
  interval_cases i <;> interval_cases j <;> interval_cases k <;>
    simp only [List.getD_cons_zero, List.getD_cons_succ, memTriangle,
      baryWeights, det3, Bool.and_eq_true, decide_eq_true_eq] <;>
    norm_num

/-- C5: for the concrete scenario points `(0,0,1,0), (1,0,0,1), (0,1,2,0),
(1,1,0,2)` (derived magnitudes `1, 1, 2, 2`), interpolating at
`(1/2, 1/2)` returns a defined value strictly between 1 and 2, for any
triangulation of the four corners that covers the centre. -/
theorem interp_square_center (tri : List Simplex)
    (hcover : ∃ t ∈ tri, simplexOK
      (points [⟨0, 0, 1, 0⟩, ⟨1, 0, 0, 1⟩, ⟨0, 1, 2, 0⟩, ⟨1, 1, 0, 2⟩])
      (1/2, 1/2) t = true) :
    ∃ r, interpAt
        (points [⟨0, 0, 1, 0⟩, ⟨1, 0, 0, 1⟩, ⟨0, 1, 2, 0⟩, ⟨1, 1, 0, 2⟩])
        (vel_mag [⟨0, 0, 1, 0⟩, ⟨1, 0, 0, 1⟩, ⟨0, 1, 2, 0⟩, ⟨1, 1, 0, 2⟩])
        tri (1/2, 1/2) = some r ∧ 1 < r ∧ r < 2 := by
  rw [points_square] at hcover ⊢
  rw [vel_mag_square]
  cases hfind : tri.find?
      (simplexOK [(0, 0), (1, 0), (0, 1), (1, 1)] (1/2, 1/2)) with
  | none =>
    exfalso
    obtain ⟨t0, ht0, hok0⟩ := hcover
    have hnone := List.find?_eq_none.mp hfind t0 ht0
    rw [hok0] at hnone
    exact hnone rfl
  | some t =>
    have hpred := List.find?_some hfind
    have hok : t.1 < 4 ∧ t.2.1 < 4 ∧ t.2.2 < 4 ∧
        memTriangle
          (([(0, 0), (1, 0), (0, 1), (1, 1)] : List (ℚ × ℚ)).getD t.1 (0, 0))
          (([(0, 0), (1, 0), (0, 1), (1, 1)] : List (ℚ × ℚ)).getD t.2.1 (0, 0))
          (([(0, 0), (1, 0), (0, 1), (1, 1)] : List (ℚ × ℚ)).getD t.2.2 (0, 0))
          (1/2, 1/2) = true := by
      simpa [simplexOK, Bool.and_eq_true, decide_eq_true_eq, and_assoc]
        using hpred
    obtain ⟨h1, h2, h3, hmem⟩ := hok
    simp only [interpAt, hfind]
    refine ⟨_, rfl, ?_⟩
    have hcombo := square_center_combo t.1 h1 t.2.1 h2 t.2.2 h3 hmem
    have heq := congrArg (fun x : ℚ => (x : ℝ)) hcombo
    push_cast at heq
    rw [square_mags_getD t.1, square_mags_getD t.2.1, square_mags_getD t.2.2]
    rw [heq]
    norm_num

/-- Witness for C5: a Delaunay triangulation of the square (split along the
main diagonal) covers the centre. -/
theorem interp_square_center_witness :
    ∃ r, interpAt
        (points [⟨0, 0, 1, 0⟩, ⟨1, 0, 0, 1⟩, ⟨0, 1, 2, 0⟩, ⟨1, 1, 0, 2⟩])
        (vel_mag [⟨0, 0, 1, 0⟩, ⟨1, 0, 0, 1⟩, ⟨0, 1, 2, 0⟩, ⟨1, 1, 0, 2⟩])
        [(0, 1, 3), (0, 3, 2)] (1/2, 1/2) = some r ∧ 1 < r ∧ r < 2 := by
  apply interp_square_center
  refine ⟨(0, 1, 3), by simp, ?_⟩
  rw [points_square]
  simp only [simplexOK, memTriangle, baryWeights, det3,
    List.getD_cons_zero, List.getD_cons_succ, Bool.and_eq_true,
    decide_eq_true_eq]
  norm_num

theorem linspace_length (start stop : ℚ) (num : ℕ) :
    (linspace start stop num).length = num := by
  rw [linspace]
  split <;> simp

/-- C6 counterexample: a requested resolution of 1 (which is `< 2`) does
not fail — `np.linspace` silently returns the one-point sequence
`[y_min]`. -/
theorem linspace_res_one_counterexample :
    linspaceChecked 0 1 1 = .ok [0] := by
  rw [linspaceChecked, if_neg (by norm_num)]
  have h1 : ¬ (1 < (1 : ℤ).toNat) := by norm_num
  simp [linspace, h1, List.range_succ]

/-- C6 amended: `np.linspace` fails (`ValueError`) exactly for a negative
requested resolution; every non-negative resolution — including 0 and 1 —
silently returns a sequence of that many points. -/
theorem linspace_resolution_check (start stop : ℚ) (num : ℤ)
    (hnum : num < 0) :
    linspaceChecked start stop num = .error .valueError ∧
    ∀ m : ℤ, 0 ≤ m → ∃ ys, linspaceChecked start stop m = .ok ys ∧
      ys.length = m.toNat := by
  constructor
  · rw [linspaceChecked, if_pos hnum]
  · intro m hm
    refine ⟨linspace start stop m.toNat, ?_, linspace_length start stop m.toNat⟩
    rw [linspaceChecked, if_neg (by omega)]

/-- Witness for the amended C6 at resolution −1 (error) and resolution 0
(silent empty sequence). -/
theorem linspace_resolution_check_witness :
    linspaceChecked 0 1 (-1) = .error .valueError ∧
    ∃ ys, linspaceChecked 0 1 0 = .ok ys ∧ ys.length = (0 : ℤ).toNat := by
  have h := linspace_resolution_check 0 1 (-1) (by norm_num)
  exact ⟨h.1, h.2 0 (by norm_num)⟩

/-- C7 counterexample: with only two input points (fewer than 3
non-collinear points) the interpolation call aborts with `QhullError`
instead of producing an all-`undefined` profile. -/
theorem griddata_degenerate_counterexample :
    griddata [(0, 0), (1, 0)] [1, 1] [(1/2, 0)] [] =
      .error .qhullError := by
  have h : hasNondegenSimplex [(0, 0), (1, 0)] = false := by
    simp only [hasNondegenSimplex, List.any_cons, List.any_nil, det3,
      Bool.or_eq_false_iff, decide_eq_false_iff_not, not_not]
    norm_num
  rw [griddata, if_neg (by rw [h]; simp)]

/-- C7 amended: whenever every triple of input points is collinear (in
particular for fewer than 3 non-collinear points), `griddata` raises
`QhullError` — the run aborts and no profile, not even an all-`undefined`
one, is produced. -/
theorem griddata_all_collinear_error (pts : List (ℚ × ℚ)) (vals : List ℝ)
    (queries : List (ℚ × ℚ)) (tri : List Simplex)
    (hcol : ∀ a ∈ pts, ∀ b ∈ pts, ∀ c ∈ pts, det3 a b c = 0) :
    griddata pts vals queries tri = .error .qhullError := by
  have h : hasNondegenSimplex pts = false := by
    cases hcase : hasNondegenSimplex pts with
    | false => rfl
    | true =>
      exfalso
      simp only [hasNondegenSimplex, List.any_eq_true, decide_eq_true_eq]
        at hcase
      obtain ⟨a, ha, b, hb, c, hc, hne⟩ := hcase
      exact hne (hcol a ha b hb c hc)
  simp [griddata, h]

/-- Witness for the amended C7: three collinear points abort with
`QhullError`. -/
theorem griddata_all_collinear_error_witness :
    griddata [(0, 0), (1, 0), (2, 0)] [1, 1, 1] [(1/2, 0)] [] =
      .error .qhullError := by
  apply griddata_all_collinear_error
  intro a ha b hb c hc
  fin_cases ha <;> fin_cases hb <;> fin_cases hc <;> norm_num [det3]

/-- C8: the load→derive→sample→interpolate pipeline is a pure function of
the parsed file content, the transect constants and the triangulation:
two runs on equal inputs produce identical profile sequences. -/
theorem pipeline_deterministic (d1 d2 : List SamplePoint) (x1 x2 : ℚ)
    (n1 n2 : ℕ) (t1 t2 : List Simplex)
    (hd : d1 = d2) (hx : x1 = x2) (hn : n1 = n2) (ht : t1 = t2) :
    pipeline d1 x1 n1 t1 = pipeline d2 x2 n2 t2 := by
  rw [hd, hx, hn, ht]

/-- Witness for C8: two runs on the same concrete input coincide. -/
theorem pipeline_deterministic_witness :
    pipeline [⟨0, 0, 1, 0⟩, ⟨1, 0, 0, 1⟩, ⟨0, 1, 2, 0⟩] (9/2) 200 [(0, 1, 2)] =
      pipeline [⟨0, 0, 1, 0⟩, ⟨1, 0, 0, 1⟩, ⟨0, 1, 2, 0⟩] (9/2) 200
        [(0, 1, 2)] :=
  pipeline_deterministic _ _ _ _ _ _ _ _ rfl rfl rfl rfl

/-- C9 counterexample: a row whose `x` cell is missing/`NaN` is NOT
rejected or excluded — its point appears in the point set handed to the
interpolator. -/
theorem loader_keeps_nan_counterexample :
    ((none, some 0) : Option ℚ × Option ℚ) ∈
      rawPoints [⟨none, some 0, some 1, some 0⟩] := by
  simp [rawPoints]

/-- C9 amended: the loader performs no validation or filtering at all — the
point set has exactly one entry per CSV row, in order, carrying the row's
`x` and `y` cells unchanged (missing/`NaN` cells included). -/
theorem loader_passthrough (data : List RawRow) :
    (rawPoints data).length = data.length ∧
    ∀ i, i < data.length →
      (rawPoints data).getD i (none, none) =
        ((data.getD i ⟨none, none, none, none⟩).x,
          (data.getD i ⟨none, none, none, none⟩).y) := by
  constructor
  · simp [rawPoints]
  · intro i hi
    rw [List.getD_eq_getElem _ _ (by simpa [rawPoints] using hi),
      List.getD_eq_getElem _ _ hi]
    simp [rawPoints]

/-- Witness for the amended C9: the NaN-coordinate row passes through at
its position. -/
theorem loader_passthrough_witness :
    (rawPoints [⟨none, some 0, some 1, some 0⟩]).getD 0 (none, none) =
      (none, some 0) := by
  have h := (loader_passthrough [⟨none, some 0, some 1, some 0⟩]).2 0
    (by norm_num)
  simpa using h

end ChannelFlow
